import Mathlib

/-!
# Verification of `envfile` (pop-os/envfile)

Shallow embedding of `src/lib.rs`.  Byte buffers are `List Nat` (each element a
byte value), decoded text is `List Nat` of Unicode scalar values (Rust `char`s).

The `snailquote` crate (`unescape` / `escape`) is an external dependency whose
source is not part of this repository; it is modelled from the spec (§4.1 step 7
and §4.2: shell-style single/double quoting, backslash escape sequences inside
double quotes, unquoted text taken literally, escape quoting only when needed),
pinned by the repository's own tests (`SAMPLE` / `SAMPLE_CLEANED` in
`src/lib.rs`): simple values stay bare, an empty value stays bare, a value with
spaces but no single quote is single-quoted, a value containing a single quote
is double-quoted.
-/

namespace Envfile

/-- Unicode scalar value validity, as guaranteed by Rust `char` / checked by
`str::from_utf8`: below the surrogate range or between it and 0x110000. -/
def ValidCp (c : Nat) : Prop := c < 1114112 ∧ ¬(55296 ≤ c ∧ c < 57344)

instance (c : Nat) : Decidable (ValidCp c) := by unfold ValidCp; infer_instance

/-- UTF-8 encoding of one scalar value (Rust `char::encode_utf8`). -/
def utf8EncodeChar (c : Nat) : List Nat :=
  if c < 128 then [c]
  else if c < 2048 then [192 + c / 64, 128 + c % 64]
  else if c < 65536 then [224 + c / 4096, 128 + (c / 64) % 64, 128 + c % 64]
  else [240 + c / 262144, 128 + (c / 4096) % 64, 128 + (c / 64) % 64, 128 + c % 64]

/-- UTF-8 encoding of a string (Rust `str::as_bytes`). -/
def utf8Encode : List Nat → List Nat
  | [] => []
  | c :: rest => utf8EncodeChar c ++ utf8Encode rest

/-- Decode one UTF-8 sequence from the front: first byte `b`, remaining bytes
`bs`.  Returns the scalar value and the rest.  Validity checks (continuation
bytes, overlong forms, surrogates, range) follow `str::from_utf8`. -/
def decodeStep (b : Nat) (bs : List Nat) : Option (Nat × List Nat) :=
  if b < 128 then some (b, bs)
  else if b < 192 then none
  else if b < 224 then
    match bs with
    | b1 :: bs1 =>
      if (128 ≤ b1 ∧ b1 < 192) ∧ 128 ≤ (b - 192) * 64 + (b1 - 128) then
        some ((b - 192) * 64 + (b1 - 128), bs1)
      else none
    | [] => none
  else if b < 240 then
    match bs with
    | b1 :: b2 :: bs2 =>
      if (128 ≤ b1 ∧ b1 < 192) ∧ (128 ≤ b2 ∧ b2 < 192) ∧
          2048 ≤ (b - 224) * 4096 + (b1 - 128) * 64 + (b2 - 128) ∧
          ¬(55296 ≤ (b - 224) * 4096 + (b1 - 128) * 64 + (b2 - 128) ∧
            (b - 224) * 4096 + (b1 - 128) * 64 + (b2 - 128) < 57344) then
        some ((b - 224) * 4096 + (b1 - 128) * 64 + (b2 - 128), bs2)
      else none
    | _ => none
  else if b < 248 then
    match bs with
    | b1 :: b2 :: b3 :: bs3 =>
      if (128 ≤ b1 ∧ b1 < 192) ∧ (128 ≤ b2 ∧ b2 < 192) ∧ (128 ≤ b3 ∧ b3 < 192) ∧
          65536 ≤ (b - 240) * 262144 + (b1 - 128) * 4096 + (b2 - 128) * 64 + (b3 - 128) ∧
          (b - 240) * 262144 + (b1 - 128) * 4096 + (b2 - 128) * 64 + (b3 - 128) < 1114112 then
        some ((b - 240) * 262144 + (b1 - 128) * 4096 + (b2 - 128) * 64 + (b3 - 128), bs3)
      else none
    | _ => none
  else none

theorem decodeStep_length {b : Nat} {bs : List Nat} {c : Nat} {rest : List Nat}
    (h : decodeStep b bs = some (c, rest)) : rest.length ≤ bs.length := by
  unfold decodeStep at h
  repeat' split at h
  all_goals
    first
    | exact Option.noConfusion h
    | (rw [Option.some.injEq, Prod.mk.injEq] at h
       obtain ⟨h1, h2⟩ := h
       subst h2
       simp_all
       try omega)

/-- Structural worker for `utf8Decode`: the fuel argument only serves the
termination of the recursion and is irrelevant whenever it is at least the
length of the byte list (`utf8DecodeF_congr`). -/
def utf8DecodeF : Nat → List Nat → Option (List Nat)
  | _, [] => some []
  | 0, _ :: _ => none
  | fuel + 1, b :: bs =>
    match decodeStep b bs with
    | none => none
    | some (c, rest) => (utf8DecodeF fuel rest).map (c :: ·)

/-- Full UTF-8 validation/decoding (Rust `str::from_utf8`), as scalar values:
repeatedly decode one scalar value with `decodeStep`. -/
def utf8Decode (bs : List Nat) : Option (List Nat) := utf8DecodeF bs.length bs

theorem utf8DecodeF_congr :
    ∀ (f1 f2 : Nat) (bs : List Nat), bs.length ≤ f1 → bs.length ≤ f2 →
      utf8DecodeF f1 bs = utf8DecodeF f2 bs := by
  intro f1
  induction f1 with
  | zero =>
      intro f2 bs h1 _
      obtain rfl : bs = [] := List.length_eq_zero.mp (Nat.le_zero.mp h1)
      cases f2 <;> rfl
  | succ n1 ih =>
      intro f2 bs h1 h2
      cases bs with
      | nil => cases f2 <;> rfl
      | cons b bs' =>
          cases f2 with
          | zero => exact absurd h2 (by simp)
          | succ n2 =>
              show (match decodeStep b bs' with
                | none => none
                | some (c, rest) => (utf8DecodeF n1 rest).map (c :: ·)) =
                (match decodeStep b bs' with
                | none => none
                | some (c, rest) => (utf8DecodeF n2 rest).map (c :: ·))
              cases hd : decodeStep b bs' with
              | none => rfl
              | some p =>
                  obtain ⟨c, rest⟩ := p
                  have hr := decodeStep_length hd
                  show (utf8DecodeF n1 rest).map (c :: ·) =
                    (utf8DecodeF n2 rest).map (c :: ·)
                  rw [ih n2 rest (by simp at h1; omega) (by simp at h2; omega)]

theorem utf8Decode_nil : utf8Decode [] = some [] := rfl

theorem utf8Decode_cons_none {b : Nat} {bs : List Nat}
    (h : decodeStep b bs = none) : utf8Decode (b :: bs) = none := by
  show (match decodeStep b bs with
    | none => none
    | some (c, rest) => (utf8DecodeF bs.length rest).map (c :: ·)) = none
  rw [h]

theorem utf8Decode_cons_some {b : Nat} {bs : List Nat} {c : Nat} {rest : List Nat}
    (h : decodeStep b bs = some (c, rest)) :
    utf8Decode (b :: bs) = (utf8Decode rest).map (c :: ·) := by
  show (match decodeStep b bs with
    | none => none
    | some (c, rest) => (utf8DecodeF bs.length rest).map (c :: ·)) = _
  rw [h]
  show (utf8DecodeF bs.length rest).map (c :: ·) = (utf8Decode rest).map (c :: ·)
  rw [utf8Decode,
    utf8DecodeF_congr bs.length rest.length rest (decodeStep_length h) (Nat.le_refl _)]

/-- The Unicode `White_Space` property, which is what Rust's `str::trim`
(via `char::is_whitespace`) strips. -/
def isRustWs (c : Nat) : Bool :=
  c = 9 ∨ c = 10 ∨ c = 11 ∨ c = 12 ∨ c = 13 ∨ c = 32 ∨ c = 133 ∨ c = 160 ∨
  c = 5760 ∨ (8192 ≤ c ∧ c ≤ 8202) ∨ c = 8232 ∨ c = 8233 ∨ c = 8239 ∨
  c = 8287 ∨ c = 12288

/-- Remove trailing whitespace (the trailing half of Rust `str::trim`). -/
def trimEnd : List Nat → List Nat
  | [] => []
  | c :: rest =>
    match trimEnd rest with
    | [] => if isRustWs c then [] else [c]
    | r => c :: r

/-- Rust `str::trim`: strip leading and trailing whitespace. -/
def rustTrim (l : List Nat) : List Nat := trimEnd (l.dropWhile isRustWs)

/-- Rust `slice::iter().position(|&x| x == b)`: index of the first occurrence. -/
def firstIdx (b : Nat) : List Nat → Option Nat
  | [] => none
  | x :: xs => if x = b then some 0 else (firstIdx b xs).map (· + 1)

/-- Split a list at the first occurrence of `b`: the part before it and the
part after it (helper used to characterise the split `parse_line` performs at
the first `b'='` byte). -/
def splitFirst (b : Nat) : List Nat → Option (List Nat × List Nat)
  | [] => none
  | x :: xs =>
    if x = b then some ([], xs)
    else (splitFirst b xs).map (fun p => (x :: p.1, p.2))

/-- Rust `slice::split(|&x| x == 10)`: split a byte buffer on the newline
byte.  Yields one (possibly empty) piece per separator-delimited stretch,
including a trailing empty piece when the buffer ends with a separator. -/
def splitNl : List Nat → List (List Nat)
  | [] => [[]]
  | b :: bs =>
    if b = 10 then [] :: splitNl bs
    else
      match splitNl bs with
      | [] => [[b]]
      | l :: ls => (b :: l) :: ls

/-- Modelled from the spec: the escape sequences `snailquote::unescape`
decodes after a backslash inside a double-quoted region ("standard escape
sequences", §4.1 step 7).  An unknown escape is a malformed-escape failure. -/
def unescCode : Nat → Option Nat
  | 97 => some 7    -- \a
  | 98 => some 8    -- \b
  | 101 => some 27  -- \e
  | 102 => some 12  -- \f
  | 110 => some 10  -- \n
  | 114 => some 13  -- \r
  | 116 => some 9   -- \t
  | 118 => some 11  -- \v
  | 92 => some 92   -- backslash
  | 39 => some 39   -- single quote
  | 34 => some 34   -- double quote
  | 36 => some 36   -- dollar
  | 96 => some 96   -- backquote
  | 32 => some 32   -- space
  | _ => none

/-- Quoting mode of the `unescape` scanner: outside quotes, inside single
quotes, inside double quotes. -/
inductive QMode | out | insq | indq
deriving DecidableEq

/-- Modelled from the spec: `snailquote::unescape` (§4.1 step 7), as a
shell-style scanner.  Outside quotes characters are taken literally (an
unquoted value is used as-is); a single-quoted region is fully literal until
the closing quote; inside a double-quoted region a backslash introduces an
escape sequence (`unescCode`), whose failure fails the whole unescape; an
unterminated quoted region fails. -/
def unescapeFrom : QMode → List Nat → Option (List Nat)
  | .out, [] => some []
  | .out, c :: rest =>
    if c = 39 then unescapeFrom .insq rest
    else if c = 34 then unescapeFrom .indq rest
    else (unescapeFrom .out rest).map (c :: ·)
  | .insq, [] => none
  | .insq, c :: rest =>
    if c = 39 then unescapeFrom .out rest
    else (unescapeFrom .insq rest).map (c :: ·)
  | .indq, [] => none
  | .indq, c :: rest =>
    if c = 34 then unescapeFrom .out rest
    else if c = 92 then
      match rest with
      | [] => none
      | e :: rest2 => (unescCode e).bind fun d => (unescapeFrom .indq rest2).map (d :: ·)
    else (unescapeFrom .indq rest).map (c :: ·)

/-- Modelled from the spec: `snailquote::unescape`. -/
def unescape (l : List Nat) : Option (List Nat) := unescapeFrom .out l

/-- Modelled from the spec (and pinned by the repository's `SAMPLE_CLEANED`
test): the characters `snailquote::escape` leaves bare — ASCII alphanumerics
and a small set of safe punctuation (`! % + , - . / : = @ ^ _`). -/
def bareSafe (c : Nat) : Bool :=
  (48 ≤ c ∧ c ≤ 57) ∨ (65 ≤ c ∧ c ≤ 90) ∨ (97 ≤ c ∧ c ≤ 122) ∨
  c = 33 ∨ c = 37 ∨ c = 43 ∨ c = 44 ∨ c = 45 ∨ c = 46 ∨ c = 47 ∨
  c = 58 ∨ c = 61 ∨ c = 64 ∨ c = 94 ∨ c = 95

/-- Escape of one character inside a double-quoted rendering: backslash the
double quote and the backslash, leave everything else literal. -/
def escDq (c : Nat) : List Nat := if c = 34 ∨ c = 92 then [92, c] else [c]

/-- Double-quoted body of a string. -/
def escDqBody : List Nat → List Nat
  | [] => []
  | c :: rest => escDq c ++ escDqBody rest

/-- Modelled from the spec: `snailquote::escape` (§4.2 Persist; pinned by the
repository's `SAMPLE_CLEANED` test).  A value made only of safe characters
(including the empty value) stays bare; a value needing quoting is wrapped in
single quotes when it contains no single quote, otherwise in double quotes
with backslash escapes for `"` and `\`. -/
def escape (s : List Nat) : List Nat :=
  if s.all bareSafe then s
  else if s.contains 39 then 34 :: escDqBody s ++ [34]
  else 39 :: s ++ [39]

/-- `parse_line` from `src/lib.rs`: UTF-8-decode the line (silently skip on
failure), trim it, skip `#` comments, find the first `b'='` byte of the
trimmed line's bytes, decode the two halves around it, and unescape the right
half; any failure yields `none`. -/
def parse_line (entry : List Nat) : Option (List Nat × List Nat) :=
  (utf8Decode entry).bind fun l =>
    let line := rustTrim l
    if line.head? = some 35 then none
    else
      (firstIdx 61 (utf8Encode line)).bind fun pos =>
        (utf8Decode ((utf8Encode line).take pos)).bind fun x =>
          (utf8Decode ((utf8Encode line).drop (pos + 1))).bind fun right =>
            (unescape right).map fun y => (x, y)

/-- Strict lexicographic order on key strings (Rust `Ord` on `String`; for
valid Unicode scalar values the byte-wise order of the UTF-8 encodings agrees
with this scalar-value order). -/
def keyLt : List Nat → List Nat → Bool
  | [], [] => false
  | [], _ :: _ => true
  | _ :: _, [] => false
  | a :: as, b :: bs => a < b ∨ (a = b ∧ keyLt as bs)

/-- The in-memory store: the `BTreeMap<String, String>` modelled as its
ascending-key association list. -/
abbrev Store := List (List Nat × List Nat)

/-- `BTreeMap::insert`: insert in key order, replacing an existing entry. -/
def insertStore (k v : List Nat) : Store → Store
  | [] => [(k, v)]
  | (k', v') :: rest =>
    if keyLt k k' then (k, v) :: (k', v') :: rest
    else if k = k' then (k, v) :: rest
    else (k', v') :: insertStore k v rest

/-- `BTreeMap::get`. -/
def lookupStore (st : Store) (k : List Nat) : Option (List Nat) :=
  (st.find? (fun p => p.1 = k)).map (fun p => p.2)

/-- The pair-producing lines of a buffer, in buffer order
(`data.split(|&x| x == b'\n').flat_map(parse_line)` in `EnvFile::new`). -/
def linePairs (data : List Nat) : List (List Nat × List Nat) :=
  (splitNl data).filterMap parse_line

/-- The store built by `EnvFile::new` from the raw bytes of the file: insert
every parsed pair, in buffer order, into an initially empty map. -/
def envNew (data : List Nat) : Store :=
  (linePairs data).foldl (fun st p => insertStore p.1 p.2 st) []

/-- The bytes `EnvFile::write` serializes: for each entry in ascending key
order, the key's bytes, `b'='`, the escaped value's bytes, and `b'\n'`. -/
def writeBuf : Store → List Nat
  | [] => []
  | (k, v) :: rest => utf8Encode k ++ 61 :: utf8Encode (escape v) ++ 10 :: writeBuf rest

/-- The `EnvFile` struct: a bound path and the parsed store. -/
structure EnvFile where
  path : List Nat
  store : Store
deriving DecidableEq

/-- `EnvFile::new` (the in-memory part, after the file's bytes are read). -/
def envFileNew (path data : List Nat) : EnvFile := ⟨path, envNew data⟩

/-- `EnvFile::update`. -/
def update (e : EnvFile) (k v : List Nat) : EnvFile :=
  ⟨e.path, insertStore k v e.store⟩

/-- `EnvFile::get`. -/
def get (e : EnvFile) (k : List Nat) : Option (List Nat) := lookupStore e.store k

/-- `EnvFile::write`: the body only reads `self.store` to build the buffer and
`self.path` to address the file; the resulting in-memory state is returned
next to the serialized bytes handed to the file write. -/
def write (e : EnvFile) : EnvFile × List Nat := (⟨e.path, e.store⟩, writeBuf e.store)

/-- Modelled from the spec: the I/O glue of `EnvFile::new` (§4.2 Load, §7) —
the raw read either fails (load surfaces an I/O error) or yields the bytes the
parser is run on; parsing itself never fails. -/
def loadModel (readResult : Option (List Nat)) : Except Unit Store :=
  match readResult with
  | none => Except.error ()
  | some data => Except.ok (envNew data)

/-- Codepoints of a Lean string literal (for concrete test inputs). -/
def str (s : String) : List Nat := s.data.map Char.toNat

/-- UTF-8 bytes of a Lean string literal (for concrete test inputs). -/
def bytes (s : String) : List Nat := utf8Encode (str s)

/-! ## UTF-8 codec lemmas -/

theorem utf8Decode_encodeChar {c : Nat} (hc : ValidCp c) (bs : List Nat) :
    utf8Decode (utf8EncodeChar c ++ bs) = (utf8Decode bs).map (c :: ·) := by
  obtain ⟨h1, h2⟩ := hc
  by_cases ha : c < 128
  · rw [show utf8EncodeChar c = [c] from by unfold utf8EncodeChar; rw [if_pos ha]]
    simp only [List.cons_append, List.nil_append]
    exact utf8Decode_cons_some (by unfold decodeStep; rw [if_pos ha])
  · by_cases hb : c < 2048
    · rw [show utf8EncodeChar c = [192 + c / 64, 128 + c % 64] from by
        unfold utf8EncodeChar; rw [if_neg ha, if_pos hb]]
      simp only [List.cons_append, List.nil_append]
      refine utf8Decode_cons_some ?_
      unfold decodeStep
      repeat' split
      all_goals try simp_all only [List.cons.injEq]
      all_goals first
        | (exfalso; omega)
        | (simp only [Option.some.injEq, Prod.mk.injEq]
           refine ⟨by omega, by trivial⟩)
        | simp_all
    · by_cases hd : c < 65536
      · rw [show utf8EncodeChar c = [224 + c / 4096, 128 + (c / 64) % 64, 128 + c % 64] from by
          unfold utf8EncodeChar; rw [if_neg ha, if_neg hb, if_pos hd]]
        simp only [List.cons_append, List.nil_append]
        refine utf8Decode_cons_some ?_
        unfold decodeStep
        repeat' split
        all_goals try simp_all only [List.cons.injEq]
        all_goals first
          | (exfalso; omega)
          | (simp only [Option.some.injEq, Prod.mk.injEq]
             refine ⟨by omega, by trivial⟩)
          | simp_all
      · rw [show utf8EncodeChar c =
            [240 + c / 262144, 128 + (c / 4096) % 64, 128 + (c / 64) % 64, 128 + c % 64] from by
          unfold utf8EncodeChar; rw [if_neg ha, if_neg hb, if_neg hd]]
        simp only [List.cons_append, List.nil_append]
        refine utf8Decode_cons_some ?_
        unfold decodeStep
        repeat' split
        all_goals try simp_all only [List.cons.injEq]
        all_goals first
          | (exfalso; omega)
          | (simp only [Option.some.injEq, Prod.mk.injEq]
             refine ⟨by omega, by trivial⟩)
          | simp_all

theorem utf8Decode_encode {l : List Nat} (h : ∀ c ∈ l, ValidCp c) :
    utf8Decode (utf8Encode l) = some l := by
  induction l with
  | nil => exact utf8Decode_nil
  | cons c rest ih =>
      rw [utf8Encode, utf8Decode_encodeChar (h c (by simp)) (utf8Encode rest),
        ih (fun x hx => h x (by simp [hx]))]
      rfl

theorem decodeStep_valid {b : Nat} {bs : List Nat} {c : Nat} {rest : List Nat}
    (h : decodeStep b bs = some (c, rest)) : ValidCp c := by
  unfold decodeStep at h
  repeat' split at h
  all_goals
    first
    | exact Option.noConfusion h
    | (rw [Option.some.injEq, Prod.mk.injEq] at h
       obtain ⟨h1, h2⟩ := h
       unfold ValidCp
       omega)

theorem decodeStep_tail_mem {b : Nat} {bs : List Nat} {c : Nat} {rest : List Nat}
    (h : decodeStep b bs = some (c, rest)) : ∀ x ∈ rest, x ∈ bs := by
  unfold decodeStep at h
  repeat' split at h
  all_goals
    first
    | exact Option.noConfusion h
    | (rw [Option.some.injEq, Prod.mk.injEq] at h
       obtain ⟨h1, h2⟩ := h
       subst h2
       intro x hx
       simp_all)

theorem decodeStep_ascii {b : Nat} {bs : List Nat} {c : Nat} {rest : List Nat}
    (h : decodeStep b bs = some (c, rest)) (hc : c < 128) : b = c := by
  unfold decodeStep at h
  repeat' split at h
  all_goals
    first
    | exact Option.noConfusion h
    | (rw [Option.some.injEq, Prod.mk.injEq] at h
       obtain ⟨h1, h2⟩ := h
       omega)

theorem utf8Decode_valid_aux :
    ∀ (n : Nat) (bs l : List Nat), bs.length ≤ n → utf8Decode bs = some l →
      ∀ c ∈ l, ValidCp c := by
  intro n
  induction n with
  | zero =>
      intro bs l hlen h
      obtain rfl : bs = [] := List.length_eq_zero.mp (Nat.le_zero.mp hlen)
      rw [utf8Decode_nil, Option.some.injEq] at h
      subst h; intro c hc; exact absurd hc (List.not_mem_nil c)
  | succ n ih =>
      intro bs l hlen h
      cases bs with
      | nil =>
          rw [utf8Decode_nil, Option.some.injEq] at h
          subst h; intro c hc; exact absurd hc (List.not_mem_nil c)
      | cons b bs' =>
          cases hd : decodeStep b bs' with
          | none => rw [utf8Decode_cons_none hd] at h; exact Option.noConfusion h
          | some p =>
              obtain ⟨c0, rest⟩ := p
              rw [utf8Decode_cons_some hd] at h
              cases hu : utf8Decode rest with
              | none => rw [hu] at h; exact Option.noConfusion h
              | some l0 =>
                  rw [hu, Option.map_some', Option.some.injEq] at h
                  subst h
                  intro c hc
                  rcases List.mem_cons.mp hc with rfl | hc0
                  · exact decodeStep_valid hd
                  · refine ih rest l0 ?_ hu c hc0
                    have := decodeStep_length hd
                    simp at hlen
                    omega

theorem utf8Decode_valid {bs l : List Nat} (h : utf8Decode bs = some l) :
    ∀ c ∈ l, ValidCp c :=
  utf8Decode_valid_aux bs.length bs l (Nat.le_refl _) h


theorem utf8Encode_append (l1 l2 : List Nat) :
    utf8Encode (l1 ++ l2) = utf8Encode l1 ++ utf8Encode l2 := by
  induction l1 with
  | nil => rfl
  | cons c rest ih => simp [utf8Encode, ih]

theorem mem_encodeChar_ascii {b : Nat} (hb : b < 128) (c : Nat) :
    b ∈ utf8EncodeChar c ↔ c = b := by
  unfold utf8EncodeChar
  repeat' split
  all_goals simp_all
  all_goals omega

theorem mem_encode_ascii {b : Nat} (hb : b < 128) (l : List Nat) :
    b ∈ utf8Encode l ↔ b ∈ l := by
  induction l with
  | nil => simp [utf8Encode]
  | cons c rest ih =>
      simp only [utf8Encode, List.mem_append, List.mem_cons, ih,
        mem_encodeChar_ascii hb]
      tauto

theorem encodeChar_ne_nil (c : Nat) : utf8EncodeChar c ≠ [] := by
  unfold utf8EncodeChar
  repeat' split
  all_goals simp

theorem utf8Decode_mem_ascii_aux :
    ∀ (n : Nat) (bs l : List Nat), bs.length ≤ n → utf8Decode bs = some l →
      ∀ c ∈ l, c < 128 → c ∈ bs := by
  intro n
  induction n with
  | zero =>
      intro bs l hlen h c hc _
      obtain rfl : bs = [] := List.length_eq_zero.mp (Nat.le_zero.mp hlen)
      rw [utf8Decode_nil, Option.some.injEq] at h
      subst h; exact absurd hc (List.not_mem_nil c)
  | succ n ih =>
      intro bs l hlen h c hc hlt
      cases bs with
      | nil =>
          rw [utf8Decode_nil, Option.some.injEq] at h
          subst h; exact absurd hc (List.not_mem_nil c)
      | cons b bs' =>
          cases hd : decodeStep b bs' with
          | none => rw [utf8Decode_cons_none hd] at h; exact Option.noConfusion h
          | some p =>
              obtain ⟨c0, rest⟩ := p
              rw [utf8Decode_cons_some hd] at h
              cases hu : utf8Decode rest with
              | none => rw [hu] at h; exact Option.noConfusion h
              | some l0 =>
                  rw [hu, Option.map_some', Option.some.injEq] at h
                  subst h
                  rcases List.mem_cons.mp hc with rfl | hc0
                  · have hb := decodeStep_ascii hd hlt
                    rw [hb]
                    exact List.mem_cons_self c bs'
                  · refine List.mem_cons_of_mem b (decodeStep_tail_mem hd c ?_)
                    refine ih rest l0 ?_ hu c hc0 hlt
                    have := decodeStep_length hd
                    simp at hlen
                    omega

theorem utf8Decode_mem_ascii {bs l : List Nat} (h : utf8Decode bs = some l)
    {c : Nat} (hc : c ∈ l) (hlt : c < 128) : c ∈ bs :=
  utf8Decode_mem_ascii_aux bs.length bs l (Nat.le_refl _) h c hc hlt

/-! ## Trim lemmas -/

theorem bareSafe_not_ws {c : Nat} (h : bareSafe c = true) : isRustWs c = false := by
  simp only [bareSafe, decide_eq_true_eq] at h
  simp only [isRustWs, decide_eq_true_eq]
  simp only [decide_eq_false_iff_not]
  omega

theorem trimEnd_sublist (l : List Nat) : List.Sublist (trimEnd l) l := by
  induction l with
  | nil => exact List.Sublist.refl _
  | cons c rest ih =>
      cases htr : trimEnd rest with
      | nil =>
          simp only [trimEnd, htr]
          split
          · exact List.nil_sublist _
          · exact List.Sublist.cons₂ c (List.nil_sublist rest)
      | cons x xs =>
          simp only [trimEnd, htr]
          exact List.Sublist.cons₂ c (htr ▸ ih)

theorem mem_trimEnd {c : Nat} {l : List Nat} (h : c ∈ trimEnd l) : c ∈ l :=
  (trimEnd_sublist l).subset h

theorem mem_rustTrim {c : Nat} {l : List Nat} (h : c ∈ rustTrim l) : c ∈ l :=
  (List.dropWhile_sublist isRustWs).subset (mem_trimEnd h)

theorem trimEnd_head {l : List Nat} {c : Nat} (h : (trimEnd l).head? = some c) :
    l.head? = some c := by
  cases l with
  | nil => simp [trimEnd] at h
  | cons x rest =>
      rw [trimEnd] at h
      revert h
      split
      · split
        · intro h; exact Option.noConfusion h
        · intro h; simp_all
      · intro h; simp_all

theorem rustTrim_head_not_ws {l : List Nat} {c : Nat}
    (h : (rustTrim l).head? = some c) : isRustWs c = false := by
  have h1 := trimEnd_head h
  have h2 : (l.dropWhile isRustWs).head? = some c := h1
  cases hd : l.dropWhile isRustWs with
  | nil => rw [hd] at h2; exact Option.noConfusion h2
  | cons x rest =>
      rw [hd] at h2
      obtain rfl : x = c := by simpa using h2
      have := List.head?_dropWhile_not isRustWs l
      rw [hd] at this
      simpa using this

theorem trimEnd_eq_self : ∀ {l : List Nat} {c : Nat},
    l.getLast? = some c → isRustWs c = false → trimEnd l = l := by
  intro l
  induction l with
  | nil => intro c h _; exact Option.noConfusion h
  | cons x rest ih =>
      intro c h hws
      cases rest with
      | nil =>
          obtain rfl : x = c := by simpa using h
          simp [trimEnd, hws]
      | cons y ys =>
          rw [List.getLast?_cons_cons] at h
          have hr := ih h hws
          rw [trimEnd, hr]

theorem dropWhile_eq_self_of_head {l : List Nat} {c : Nat}
    (h : l.head? = some c) (hws : isRustWs c = false) :
    l.dropWhile isRustWs = l := by
  cases l with
  | nil => exact Option.noConfusion h
  | cons x rest =>
      obtain rfl : x = c := by simpa using h
      simp [List.dropWhile_cons, hws]

theorem rustTrim_eq_self {l : List Nat}
    (h1 : ∀ c, l.head? = some c → isRustWs c = false)
    (h2 : ∀ c, l.getLast? = some c → isRustWs c = false) :
    rustTrim l = l := by
  cases l with
  | nil => rfl
  | cons x rest =>
      have hd : (x :: rest).dropWhile isRustWs = x :: rest :=
        dropWhile_eq_self_of_head rfl (h1 x rfl)
      rw [rustTrim, hd]
      obtain ⟨c, hc⟩ : ∃ c, (x :: rest).getLast? = some c := by
        cases hlast : (x :: rest).getLast? with
        | none => simp at hlast
        | some c => exact ⟨c, rfl⟩
      exact trimEnd_eq_self hc (h2 c hc)

theorem trimEnd_append_ws {c : Nat} (hc : isRustWs c = true) (l : List Nat) :
    trimEnd (l ++ [c]) = trimEnd l := by
  induction l with
  | nil => simp [trimEnd, hc]
  | cons x rest ih =>
      rw [List.cons_append]
      cases htr : trimEnd rest with
      | nil =>
          rw [trimEnd, ih, htr, trimEnd, htr]
      | cons y ys =>
          rw [trimEnd, ih, htr, trimEnd, htr]

theorem rustTrim_append_ws {c : Nat} (hc : isRustWs c = true) (l : List Nat) :
    rustTrim (l ++ [c]) = rustTrim l := by
  rw [rustTrim, rustTrim, List.dropWhile_append]
  split
  · next he =>
      have h0 : l.dropWhile isRustWs = [] := by simpa [List.isEmpty_iff] using he
      rw [h0]
      simp [List.dropWhile, hc, trimEnd]
  · next he =>
      exact trimEnd_append_ws hc _

/-! ## splitFirst, firstIdx, splitNl lemmas -/

theorem splitFirst_eq_none {b : Nat} : ∀ {l : List Nat}, splitFirst b l = none ↔ b ∉ l := by
  intro l
  induction l with
  | nil => simp [splitFirst]
  | cons x xs ih =>
      rw [splitFirst]
      by_cases hx : x = b
      · simp [hx]
      · simp [hx, Option.map_eq_none', ih, List.mem_cons]
        tauto

theorem splitFirst_eq_some {b : Nat} : ∀ {l k r : List Nat},
    splitFirst b l = some (k, r) → l = k ++ b :: r ∧ b ∉ k := by
  intro l
  induction l with
  | nil => intro k r h; exact Option.noConfusion h
  | cons x xs ih =>
      intro k r h
      rw [splitFirst] at h
      by_cases hx : x = b
      · rw [if_pos hx, Option.some.injEq, Prod.mk.injEq] at h
        obtain ⟨h1, h2⟩ := h
        subst h1
        subst h2
        subst hx
        simp
      · rw [if_neg hx] at h
        cases hs : splitFirst b xs with
        | none => rw [hs] at h; exact Option.noConfusion h
        | some p =>
            rw [hs, Option.map_some', Option.some.injEq] at h
            obtain ⟨k0, r0⟩ := p
            rw [Prod.mk.injEq] at h
            obtain ⟨hk, hr⟩ := h
            obtain ⟨hl, hb⟩ := ih hs
            subst hk; subst hr; subst hl
            refine ⟨by simp, ?_⟩
            simp [List.mem_cons, hx, hb]
            tauto

theorem splitFirst_append {b : Nat} : ∀ {k : List Nat} (r : List Nat),
    b ∉ k → splitFirst b (k ++ b :: r) = some (k, r) := by
  intro k
  induction k with
  | nil => intro r _; simp [splitFirst]
  | cons x xs ih =>
      intro r hb
      have hx : x ≠ b := fun h => hb (h ▸ List.mem_cons_self x xs)
      rw [List.cons_append, splitFirst, if_neg hx,
        ih r (fun h => hb (List.mem_cons_of_mem x h)), Option.map_some']

theorem firstIdx_eq_none {b : Nat} : ∀ {l : List Nat}, b ∉ l → firstIdx b l = none := by
  intro l
  induction l with
  | nil => intro _; rfl
  | cons x xs ih =>
      intro h
      have hx : x ≠ b := fun hh => h (hh ▸ List.mem_cons_self x xs)
      rw [firstIdx, if_neg hx, ih (fun hh => h (List.mem_cons_of_mem x hh))]
      rfl

theorem firstIdx_append {b : Nat} : ∀ {k : List Nat} (r : List Nat),
    b ∉ k → firstIdx b (k ++ b :: r) = some k.length := by
  intro k
  induction k with
  | nil => intro r _; simp [firstIdx]
  | cons x xs ih =>
      intro r hb
      have hx : x ≠ b := fun h => hb (h ▸ List.mem_cons_self x xs)
      rw [List.cons_append, firstIdx, if_neg hx,
        ih r (fun h => hb (List.mem_cons_of_mem x h)), Option.map_some']
      simp

theorem splitNl_ne_nil : ∀ (l : List Nat), splitNl l ≠ [] := by
  intro l
  induction l with
  | nil => simp [splitNl]
  | cons b bs ih =>
      rw [splitNl]
      by_cases hb : b = 10
      · simp [hb]
      · rw [if_neg hb]
        cases hs : splitNl bs with
        | nil => exact absurd hs ih
        | cons x xs => simp

theorem splitNl_append {l : List Nat} (hl : (10 : Nat) ∉ l) (rest : List Nat) :
    splitNl (l ++ 10 :: rest) = l :: splitNl rest := by
  induction l with
  | nil => simp [splitNl]
  | cons b bs ih =>
      have hb : b ≠ 10 := fun h => hl (h ▸ List.mem_cons_self b bs)
      rw [List.cons_append, splitNl, if_neg hb,
        ih (fun h => hl (List.mem_cons_of_mem b h))]

theorem mem_splitNl_no_nl : ∀ {l p : List Nat}, p ∈ splitNl l → (10 : Nat) ∉ p := by
  intro l
  induction l with
  | nil =>
      intro p hp
      obtain rfl : p = [] := by simpa [splitNl] using hp
      simp
  | cons b bs ih =>
      intro p hp
      rw [splitNl] at hp
      by_cases hb : b = 10
      · rw [if_pos hb] at hp
        rcases List.mem_cons.mp hp with rfl | hp0
        · simp
        · exact ih hp0
      · rw [if_neg hb] at hp
        cases hs : splitNl bs with
        | nil => exact absurd hs (splitNl_ne_nil bs)
        | cons x xs =>
            rw [hs] at hp
            rcases List.mem_cons.mp hp with rfl | hp0
            · intro hmem
              rcases List.mem_cons.mp hmem with h10 | h10
              · exact hb h10.symm
              · exact ih (hs ▸ List.mem_cons_self x xs) h10
            · exact ih (hs ▸ List.mem_cons_of_mem x hp0)

/-! ## Unescape / escape lemmas -/

theorem unescCode_valid {e d : Nat} (h : unescCode e = some d) : ValidCp d := by
  unfold unescCode at h
  split at h
  all_goals first
    | exact Option.noConfusion h
    | (rw [Option.some.injEq] at h; exact ⟨by omega, by omega⟩)

theorem bareSafe_not_quote {c : Nat} (h : bareSafe c = true) :
    c ≠ 39 ∧ c ≠ 34 ∧ c ≠ 92 ∧ c ≠ 10 := by
  simp only [bareSafe, decide_eq_true_eq] at h
  omega

theorem unescOut_cons (c : Nat) (rest : List Nat) :
    unescapeFrom .out (c :: rest) =
      if c = 39 then unescapeFrom .insq rest
      else if c = 34 then unescapeFrom .indq rest
      else (unescapeFrom .out rest).map (c :: ·) := rfl

theorem unescInsq_cons (c : Nat) (rest : List Nat) :
    unescapeFrom .insq (c :: rest) =
      if c = 39 then unescapeFrom .out rest
      else (unescapeFrom .insq rest).map (c :: ·) := rfl

theorem unescIndq_cons {c : Nat} (h34 : c ≠ 34) (h92 : c ≠ 92) (rest : List Nat) :
    unescapeFrom .indq (c :: rest) = (unescapeFrom .indq rest).map (c :: ·) := by
  rw [unescapeFrom.eq_def]
  split
  all_goals try (rename_i heqa; obtain ⟨rfl, rfl⟩ := heqa)
  all_goals simp_all

theorem unescIndq_close (rest : List Nat) :
    unescapeFrom .indq (34 :: rest) = unescapeFrom .out rest := by
  rw [unescapeFrom.eq_def]
  split
  all_goals try (rename_i heqa; obtain ⟨rfl, rfl⟩ := heqa)
  all_goals simp_all

theorem unescIndq_backslash (e : Nat) (rest2 : List Nat) :
    unescapeFrom .indq (92 :: e :: rest2) =
      (unescCode e).bind fun d => (unescapeFrom .indq rest2).map (d :: ·) := by
  rw [unescapeFrom.eq_def]
  split
  all_goals try (rename_i heqa; obtain ⟨rfl, rfl⟩ := heqa)
  all_goals simp_all

theorem unescOut_lit {s : List Nat} (h : ∀ c ∈ s, c ≠ 39 ∧ c ≠ 34) :
    unescapeFrom .out s = some s := by
  induction s with
  | nil => rfl
  | cons c rest ih =>
      obtain ⟨h39, h34⟩ := h c (List.mem_cons_self c rest)
      rw [unescOut_cons, if_neg h39, if_neg h34,
        ih (fun x hx => h x (List.mem_cons_of_mem c hx)), Option.map_some']

theorem unescInsq_append {s : List Nat} (h : (39 : Nat) ∉ s) (rest : List Nat) :
    unescapeFrom .insq (s ++ 39 :: rest) =
      (unescapeFrom .out rest).map (s ++ ·) := by
  induction s with
  | nil =>
      rw [List.nil_append, unescInsq_cons, if_pos rfl]
      cases unescapeFrom .out rest <;> simp
  | cons c s' ih =>
      have hc : c ≠ 39 := fun hh => h (hh ▸ List.mem_cons_self c s')
      rw [List.cons_append, unescInsq_cons, if_neg hc,
        ih (fun hh => h (List.mem_cons_of_mem c hh))]
      cases unescapeFrom .out rest <;> simp

theorem unescIndq_body (s : List Nat) (rest : List Nat) :
    unescapeFrom .indq (escDqBody s ++ 34 :: rest) =
      (unescapeFrom .out rest).map (s ++ ·) := by
  induction s with
  | nil =>
      rw [escDqBody, List.nil_append, unescIndq_close]
      cases unescapeFrom .out rest <;> simp
  | cons c s' ih =>
      by_cases hc : c = 34 ∨ c = 92
      · have hcode : unescCode c = some c := by rcases hc with rfl | rfl <;> rfl
        have hred : unescapeFrom .indq (escDqBody (c :: s') ++ 34 :: rest) =
            (unescCode c).bind fun d =>
              (unescapeFrom .indq (escDqBody s' ++ 34 :: rest)).map (d :: ·) := by
          rw [show escDqBody (c :: s') = 92 :: c :: escDqBody s' from by
            rw [escDqBody, escDq, if_pos hc]; rfl]
          rw [List.cons_append, List.cons_append, unescIndq_backslash]
        rw [hred, hcode, Option.some_bind, ih]
        cases unescapeFrom .out rest <;> simp
      · have h34 : c ≠ 34 := fun hh => hc (Or.inl hh)
        have h92 : c ≠ 92 := fun hh => hc (Or.inr hh)
        have hred : unescapeFrom .indq (escDqBody (c :: s') ++ 34 :: rest) =
            (unescapeFrom .indq (escDqBody s' ++ 34 :: rest)).map (c :: ·) := by
          rw [show escDqBody (c :: s') = c :: escDqBody s' from by
            rw [escDqBody, escDq, if_neg hc]; rfl]
          rw [List.cons_append, unescIndq_cons h34 h92]
        rw [hred, ih]
        cases unescapeFrom .out rest <;> simp

theorem getLast?_mem_list {l : List Nat} {a : Nat} (h : l.getLast? = some a) : a ∈ l := by
  have h2 : a ∈ l.getLast? := h
  obtain ⟨hne, rfl⟩ := List.mem_getLast?_eq_getLast h2
  exact List.getLast_mem hne

theorem unescape_escape (v : List Nat) : unescape (escape v) = some v := by
  unfold escape
  split
  · next hall =>
      refine unescOut_lit ?_
      intro c hcv
      have hc : bareSafe c = true := by
        have := List.all_eq_true.mp hall c hcv
        simpa using this
      obtain ⟨h39, h34, _, _⟩ := bareSafe_not_quote hc
      exact ⟨h39, h34⟩
  · split
    · rw [unescape, List.cons_append, unescOut_cons, if_neg (by omega), if_pos rfl,
        show escDqBody v ++ [34] = escDqBody v ++ 34 :: [] from rfl, unescIndq_body]
      simp [show unescapeFrom .out [] = some [] from rfl]
    · next hq =>
      have h39 : (39 : Nat) ∉ v := by simpa using hq
      rw [unescape, List.cons_append, unescOut_cons, if_pos rfl,
        show v ++ [39] = v ++ 39 :: [] from rfl, unescInsq_append h39]
      simp [show unescapeFrom .out [] = some [] from rfl]

theorem unescapeFrom_valid :
    ∀ (n : Nat) (m : QMode) (s v : List Nat), s.length ≤ n →
      (∀ c ∈ s, ValidCp c) → unescapeFrom m s = some v → ∀ c ∈ v, ValidCp c := by
  intro n
  induction n with
  | zero =>
      intro m s v hlen hs h
      obtain rfl : s = [] := List.length_eq_zero.mp (Nat.le_zero.mp hlen)
      cases m with
      | out =>
          obtain rfl : v = [] := by
            have : some [] = some v := h
            simpa using this.symm
          intro c hc; exact absurd hc (List.not_mem_nil c)
      | insq => exact Option.noConfusion h
      | indq => exact Option.noConfusion h
  | succ n ih =>
      intro m s v hlen hs h
      cases s with
      | nil =>
          cases m with
          | out =>
              obtain rfl : v = [] := by
                have : some [] = some v := h
                simpa using this.symm
              intro c hc; exact absurd hc (List.not_mem_nil c)
          | insq => exact Option.noConfusion h
          | indq => exact Option.noConfusion h
      | cons c rest =>
          have hlen' : rest.length ≤ n := by simp at hlen; omega
          have hs' : ∀ x ∈ rest, ValidCp x := fun x hx => hs x (List.mem_cons_of_mem c hx)
          cases m with
          | out =>
              rw [unescOut_cons] at h
              by_cases h39 : c = 39
              · rw [if_pos h39] at h; exact ih .insq rest v hlen' hs' h
              · by_cases h34 : c = 34
                · rw [if_neg h39, if_pos h34] at h; exact ih .indq rest v hlen' hs' h
                · rw [if_neg h39, if_neg h34] at h
                  cases hu : unescapeFrom .out rest with
                  | none => rw [hu] at h; exact Option.noConfusion h
                  | some v0 =>
                      rw [hu, Option.map_some', Option.some.injEq] at h
                      subst h
                      intro x hx
                      rcases List.mem_cons.mp hx with rfl | hx0
                      · exact hs x (List.mem_cons_self x rest)
                      · exact ih .out rest v0 hlen' hs' hu x hx0
          | insq =>
              rw [unescInsq_cons] at h
              by_cases h39 : c = 39
              · rw [if_pos h39] at h; exact ih .out rest v hlen' hs' h
              · rw [if_neg h39] at h
                cases hu : unescapeFrom .insq rest with
                | none => rw [hu] at h; exact Option.noConfusion h
                | some v0 =>
                    rw [hu, Option.map_some', Option.some.injEq] at h
                    subst h
                    intro x hx
                    rcases List.mem_cons.mp hx with rfl | hx0
                    · exact hs x (List.mem_cons_self x rest)
                    · exact ih .insq rest v0 hlen' hs' hu x hx0
          | indq =>
              by_cases h34 : c = 34
              · subst h34
                rw [unescIndq_close] at h
                exact ih .out rest v hlen' hs' h
              · by_cases h92 : c = 92
                · subst h92
                  cases rest with
                  | nil => exact Option.noConfusion h
                  | cons e rest2 =>
                      rw [unescIndq_backslash] at h
                      cases hc : unescCode e with
                      | none => rw [hc] at h; exact Option.noConfusion h
                      | some d =>
                          rw [hc, Option.some_bind] at h
                          cases hu : unescapeFrom .indq rest2 with
                          | none => rw [hu] at h; exact Option.noConfusion h
                          | some v0 =>
                              rw [hu, Option.map_some', Option.some.injEq] at h
                              subst h
                              intro x hx
                              rcases List.mem_cons.mp hx with rfl | hx0
                              · exact unescCode_valid hc
                              · refine ih .indq rest2 v0 ?_ ?_ hu x hx0
                                · simp at hlen; omega
                                · intro y hy
                                  exact hs y (List.mem_cons_of_mem 92
                                    (List.mem_cons_of_mem e hy))
                · rw [unescIndq_cons h34 h92] at h
                  cases hu : unescapeFrom .indq rest with
                  | none => rw [hu] at h; exact Option.noConfusion h
                  | some v0 =>
                      rw [hu, Option.map_some', Option.some.injEq] at h
                      subst h
                      intro x hx
                      rcases List.mem_cons.mp hx with rfl | hx0
                      · exact hs x (List.mem_cons_self x rest)
                      · exact ih .indq rest v0 hlen' hs' hu x hx0

theorem unescape_valid {s v : List Nat} (hs : ∀ c ∈ s, ValidCp c)
    (h : unescape s = some v) : ∀ c ∈ v, ValidCp c :=
  unescapeFrom_valid s.length .out s v (Nat.le_refl _) hs h

theorem mem_escDqBody {c : Nat} : ∀ {s : List Nat}, c ∈ escDqBody s → c ∈ s ∨ c = 92 := by
  intro s
  induction s with
  | nil => intro h; exact absurd h (List.not_mem_nil c)
  | cons x s' ih =>
      intro h
      rw [escDqBody] at h
      rcases List.mem_append.mp h with h1 | h2
      · unfold escDq at h1
        split at h1
        · rcases List.mem_cons.mp h1 with rfl | h1'
          · exact Or.inr rfl
          · rcases List.mem_cons.mp h1' with rfl | h1''
            · exact Or.inl (List.mem_cons_self c s')
            · exact absurd h1'' (List.not_mem_nil c)
        · rcases List.mem_cons.mp h1 with rfl | h1'
          · exact Or.inl (List.mem_cons_self c s')
          · exact absurd h1' (List.not_mem_nil c)
      · rcases ih h2 with h3 | h3
        · exact Or.inl (List.mem_cons_of_mem x h3)
        · exact Or.inr h3

theorem mem_escape {c : Nat} {v : List Nat} (h : c ∈ escape v) :
    c ∈ v ∨ c = 39 ∨ c = 34 ∨ c = 92 := by
  unfold escape at h
  split at h
  · exact Or.inl h
  · split at h
    · rcases List.mem_cons.mp h with rfl | h1
      · exact Or.inr (Or.inr (Or.inl rfl))
      · rcases List.mem_append.mp h1 with h2 | h2
        · rcases mem_escDqBody h2 with h3 | h3
          · exact Or.inl h3
          · exact Or.inr (Or.inr (Or.inr h3))
        · rcases List.mem_cons.mp h2 with rfl | h3
          · exact Or.inr (Or.inr (Or.inl rfl))
          · exact absurd h3 (List.not_mem_nil c)
    · rcases List.mem_cons.mp h with rfl | h1
      · exact Or.inr (Or.inl rfl)
      · rcases List.mem_append.mp h1 with h2 | h2
        · exact Or.inl h2
        · rcases List.mem_cons.mp h2 with rfl | h3
          · exact Or.inr (Or.inl rfl)
          · exact absurd h3 (List.not_mem_nil c)

theorem escape_valid {v : List Nat} (hv : ∀ c ∈ v, ValidCp c) :
    ∀ c ∈ escape v, ValidCp c := by
  intro c hc
  rcases mem_escape hc with h | h | h | h
  · exact hv c h
  all_goals (subst h; exact ⟨by omega, by omega⟩)

theorem escape_no_nl {v : List Nat} (hv : (10 : Nat) ∉ v) : (10 : Nat) ∉ escape v := by
  intro h
  rcases mem_escape h with h1 | h1 | h1 | h1
  · exact hv h1
  all_goals omega

theorem escape_getLast_not_ws {v : List Nat} {c : Nat}
    (h : (escape v).getLast? = some c) : isRustWs c = false := by
  unfold escape at h
  split at h
  · next hall =>
      have hc : bareSafe c = true := by
        have := List.all_eq_true.mp hall c (getLast?_mem_list h)
        simpa using this
      exact bareSafe_not_ws hc
  · split at h
    · rw [show (34 : Nat) :: escDqBody v ++ [34] = (34 :: escDqBody v) ++ [34] from rfl,
        List.getLast?_concat, Option.some.injEq] at h
      subst h; rfl
    · rw [show (39 : Nat) :: v ++ [39] = (39 :: v) ++ [39] from rfl,
        List.getLast?_concat, Option.some.injEq] at h
      subst h; rfl

/-! ## Key order and store lemmas -/

theorem keyLt_nil_cons (y : Nat) (ys : List Nat) : keyLt [] (y :: ys) = true := rfl

theorem keyLt_cons_iff {x y : Nat} {xs ys : List Nat} :
    keyLt (x :: xs) (y :: ys) = true ↔ (x < y ∨ (x = y ∧ keyLt xs ys = true)) := by
  simp [keyLt]

theorem keyLt_irrefl : ∀ (a : List Nat), keyLt a a = false := by
  intro a
  induction a with
  | nil => rfl
  | cons x xs ih =>
      rw [Bool.eq_false_iff]
      intro hcontra
      rcases keyLt_cons_iff.mp hcontra with h | ⟨_, h⟩
      · omega
      · rw [ih] at h; exact Bool.noConfusion h

theorem keyLt_ne {a b : List Nat} (h : keyLt a b = true) : a ≠ b := fun hh => by
  subst hh
  rw [keyLt_irrefl] at h
  exact Bool.noConfusion h

theorem keyLt_trans : ∀ {a b c : List Nat},
    keyLt a b = true → keyLt b c = true → keyLt a c = true := by
  intro a
  induction a with
  | nil =>
      intro b c h1 h2
      cases b with
      | nil => exact absurd h1 (by rw [keyLt_irrefl]; exact Bool.noConfusion)
      | cons y ys =>
          cases c with
          | nil => exact absurd h2 (by simp [keyLt])
          | cons z zs => rfl
  | cons x xs ih =>
      intro b c h1 h2
      cases b with
      | nil => exact absurd h1 (by simp [keyLt])
      | cons y ys =>
          cases c with
          | nil => exact absurd h2 (by simp [keyLt])
          | cons z zs =>
              rcases keyLt_cons_iff.mp h1 with hx | ⟨hx, hr1⟩ <;>
                rcases keyLt_cons_iff.mp h2 with hy | ⟨hy, hr2⟩
              · exact keyLt_cons_iff.mpr (Or.inl (by omega))
              · exact keyLt_cons_iff.mpr (Or.inl (by omega))
              · exact keyLt_cons_iff.mpr (Or.inl (by omega))
              · exact keyLt_cons_iff.mpr (Or.inr ⟨by omega, ih hr1 hr2⟩)

theorem keyLt_asymm {a b : List Nat} (h : keyLt a b = true) : keyLt b a = false := by
  rw [Bool.eq_false_iff]
  intro h2
  have := keyLt_trans h h2
  rw [keyLt_irrefl] at this
  exact Bool.noConfusion this

theorem keyLt_of_not : ∀ {a b : List Nat},
    keyLt a b = false → a ≠ b → keyLt b a = true := by
  intro a
  induction a with
  | nil =>
      intro b h1 h2
      cases b with
      | nil => exact absurd rfl h2
      | cons y ys => exact absurd h1 (by simp [keyLt])
  | cons x xs ih =>
      intro b h1 h2
      cases b with
      | nil => rfl
      | cons y ys =>
          have hnot : ¬(x < y ∨ (x = y ∧ keyLt xs ys = true)) := by
            intro hcontra
            rw [keyLt_cons_iff.mpr hcontra] at h1
            exact Bool.noConfusion h1
          push_neg at hnot
          obtain ⟨hxy, hrest⟩ := hnot
          by_cases heq : x = y
          · subst heq
            have hne : xs ≠ ys := fun hh => h2 (hh ▸ rfl)
            have hr : keyLt xs ys = false := by
              cases hk : keyLt xs ys with
              | false => rfl
              | true => exact absurd hk (by simpa using hrest rfl)
            exact keyLt_cons_iff.mpr (Or.inr ⟨rfl, ih hr hne⟩)
          · exact keyLt_cons_iff.mpr (Or.inl (by omega))

/-- The sortedness invariant of the `BTreeMap` model: keys strictly ascending. -/
def SortedStore (st : Store) : Prop :=
  st.Pairwise (fun p q => keyLt p.1 q.1 = true)

instance (st : Store) : Decidable (SortedStore st) := by
  unfold SortedStore; infer_instance

theorem mem_insertStore {p : List Nat × List Nat} {k v : List Nat} :
    ∀ {st : Store}, p ∈ insertStore k v st → p = (k, v) ∨ p ∈ st := by
  intro st
  induction st with
  | nil => intro h; simpa [insertStore] using h
  | cons q rest ih =>
      intro h
      rw [insertStore] at h
      split at h
      · rcases List.mem_cons.mp h with rfl | h1
        · exact Or.inl rfl
        · exact Or.inr h1
      · split at h
        · rcases List.mem_cons.mp h with rfl | h1
          · exact Or.inl rfl
          · exact Or.inr (List.mem_cons_of_mem q h1)
        · rcases List.mem_cons.mp h with rfl | h1
          · exact Or.inr (List.mem_cons_self q rest)
          · rcases ih h1 with h2 | h2
            · exact Or.inl h2
            · exact Or.inr (List.mem_cons_of_mem q h2)

theorem insertStore_sorted {k v : List Nat} :
    ∀ {st : Store}, SortedStore st → SortedStore (insertStore k v st) := by
  intro st
  induction st with
  | nil => intro _; simp [insertStore, SortedStore]
  | cons q rest ih =>
      intro h
      rw [SortedStore, List.pairwise_cons] at h
      obtain ⟨hb, htail⟩ := h
      rw [insertStore]
      split
      · next hlt =>
          rw [SortedStore, List.pairwise_cons]
          refine ⟨?_, List.pairwise_cons.mpr ⟨hb, htail⟩⟩
          intro q' hq'
          rcases List.mem_cons.mp hq' with rfl | hq''
          · exact hlt
          · exact keyLt_trans hlt (hb q' hq'')
      · split
        · next heq =>
            rw [SortedStore, List.pairwise_cons]
            exact ⟨fun q' hq' => heq ▸ hb q' hq', htail⟩
        · next hlt heq =>
            rw [SortedStore, List.pairwise_cons]
            refine ⟨?_, ih htail⟩
            intro q' hq'
            rcases mem_insertStore hq' with rfl | hq''
            · exact keyLt_of_not (by simpa using hlt) (by simpa using heq)
            · exact hb q' hq''

theorem insertStore_append_gt {k v : List Nat} :
    ∀ {st : Store}, (∀ p ∈ st, keyLt p.1 k = true) →
      insertStore k v st = st ++ [(k, v)] := by
  intro st
  induction st with
  | nil => intro _; rfl
  | cons q rest ih =>
      intro h
      have hq := h q (List.mem_cons_self q rest)
      rw [insertStore, if_neg (by rw [keyLt_asymm hq]; exact Bool.noConfusion),
        if_neg (fun hh => keyLt_ne hq hh.symm),
        ih (fun p hp => h p (List.mem_cons_of_mem q hp))]
      rfl

theorem foldl_insertStore_sorted :
    ∀ {st : Store}, SortedStore st →
      st.foldl (fun s p => insertStore p.1 p.2 s) [] = st := by
  intro st
  induction st using List.reverseRecOn with
  | nil => intro _; rfl
  | append_singleton xs x ih =>
      intro h
      rw [List.foldl_append]
      obtain ⟨hxs, hbound⟩ : SortedStore xs ∧ ∀ p ∈ xs, keyLt p.1 x.1 = true := by
        rw [SortedStore, List.pairwise_append] at h
        exact ⟨h.1, fun p hp => h.2.2 p hp x (List.mem_singleton_self x)⟩
      rw [ih hxs]
      simpa [List.foldl] using insertStore_append_gt hbound

theorem lookupStore_insert_self (k v : List Nat) :
    ∀ (st : Store), lookupStore (insertStore k v st) k = some v := by
  intro st
  induction st with
  | nil => simp [insertStore, lookupStore, List.find?]
  | cons q rest ih =>
      rw [insertStore]
      split
      · simp [lookupStore, List.find?]
      · split
        · simp [lookupStore, List.find?]
        · next hlt heq =>
            rw [lookupStore, List.find?]
            rw [show (decide (q.1 = k)) = false from by
              simp only [decide_eq_false_iff_not]
              intro hh
              exact heq (hh ▸ rfl)]
            exact ih

theorem lookupStore_insert_ne {k k' : List Nat} (hne : k' ≠ k) (v : List Nat) :
    ∀ (st : Store), lookupStore (insertStore k v st) k' = lookupStore st k' := by
  intro st
  induction st with
  | nil =>
      simp only [insertStore, lookupStore, List.find?]
      rw [show (decide (k = k')) = false from by
        simp only [decide_eq_false_iff_not]
        exact fun hh => hne hh.symm]
  | cons q rest ih =>
      rw [insertStore]
      split
      · rw [lookupStore, List.find?]
        rw [show (decide (k = k')) = false from by
          simp only [decide_eq_false_iff_not]
          exact fun hh => hne hh.symm]
        rfl
      · split
        · next heq =>
            rw [lookupStore, List.find?]
            rw [show (decide (k = k')) = false from by
              simp only [decide_eq_false_iff_not]
              exact fun hh => hne hh.symm]
            rw [lookupStore, List.find?]
            rw [show (decide (q.1 = k')) = false from by
              simp only [decide_eq_false_iff_not]
              intro hh
              exact hne (heq.trans hh).symm]
        · rw [lookupStore, List.find?, lookupStore, List.find?]
          cases hq : decide (q.1 = k') with
          | true => rfl
          | false => exact ih

/-! ## The character-level reading of `parse_line` -/

/-- Character-level characterisation of the line parser: trim, skip `#`
comments, split at the first `=`, unescape the right half.  Related to the
byte-level `parse_line` by `parse_line_decode`. -/
def parseLineCp (l : List Nat) : Option (List Nat × List Nat) :=
  let line := rustTrim l
  if line.head? = some 35 then none
  else
    (splitFirst 61 line).bind fun p => (unescape p.2).map fun y => (p.1, y)

theorem encodeChar_eq_self {c : Nat} (h : c < 128) : utf8EncodeChar c = [c] := by
  unfold utf8EncodeChar
  rw [if_pos h]

theorem parse_line_decode {entry l : List Nat} (h : utf8Decode entry = some l) :
    parse_line entry = parseLineCp l := by
  have hval : ∀ c ∈ l, ValidCp c := utf8Decode_valid h
  have hvalt : ∀ c ∈ rustTrim l, ValidCp c := fun c hc => hval c (mem_rustTrim hc)
  rw [parse_line, h, Option.some_bind, parseLineCp]
  by_cases hcom : (rustTrim l).head? = some 35
  · rw [if_pos hcom, if_pos hcom]
  · rw [if_neg hcom, if_neg hcom]
    cases hsp : splitFirst 61 (rustTrim l) with
    | none =>
        have h61 : (61 : Nat) ∉ rustTrim l := splitFirst_eq_none.mp hsp
        have h61e : (61 : Nat) ∉ utf8Encode (rustTrim l) := fun hh =>
          h61 ((mem_encode_ascii (by omega) _).mp hh)
        rw [firstIdx_eq_none h61e, Option.none_bind, Option.none_bind]
    | some p =>
        obtain ⟨k, raw⟩ := p
        obtain ⟨hline, hk61⟩ := splitFirst_eq_some hsp
        have hkval : ∀ c ∈ k, ValidCp c := fun c hc =>
          hvalt c (hline ▸ List.mem_append_left _ hc)
        have hrval : ∀ c ∈ raw, ValidCp c := fun c hc =>
          hvalt c (hline ▸ List.mem_append_right _ (List.mem_cons_of_mem 61 hc))
        have hk61e : (61 : Nat) ∉ utf8Encode k := fun hh =>
          hk61 ((mem_encode_ascii (by omega) _).mp hh)
        have henc : utf8Encode (rustTrim l) = utf8Encode k ++ 61 :: utf8Encode raw := by
          rw [hline, utf8Encode_append, utf8Encode, encodeChar_eq_self (by omega)]
          rfl
        rw [henc, firstIdx_append _ hk61e, Option.some_bind]
        rw [List.take_left, utf8Decode_encode hkval, Option.some_bind]
        rw [show (utf8Encode k ++ 61 :: utf8Encode raw).drop ((utf8Encode k).length + 1) =
            utf8Encode raw from by
          rw [show utf8Encode k ++ 61 :: utf8Encode raw =
              (utf8Encode k ++ [61]) ++ utf8Encode raw from by simp,
            show (utf8Encode k).length + 1 = (utf8Encode k ++ [61]).length from by simp,
            List.drop_left]]
        rw [utf8Decode_encode hrval, Option.some_bind, Option.some_bind]

/-! ## Shape of parsed entries, store invariants, and the write round-trip -/

/-- Shape every key reachable through `parse_line` has: valid scalar values,
no `=`, no newline, and a first character that is neither whitespace nor `#`. -/
def KeyOK (k : List Nat) : Prop :=
  (∀ c ∈ k, ValidCp c) ∧ (61 : Nat) ∉ k ∧ (10 : Nat) ∉ k ∧
    ∀ c ∈ k.take 1, isRustWs c = false ∧ c ≠ 35

/-- Value shape needed for the write round-trip: valid scalar values and no
embedded newline. -/
def ValOK (v : List Nat) : Prop := (∀ c ∈ v, ValidCp c) ∧ (10 : Nat) ∉ v

instance (k : List Nat) : Decidable (KeyOK k) := by unfold KeyOK; infer_instance

instance (v : List Nat) : Decidable (ValOK v) := by unfold ValOK; infer_instance

theorem parse_line_shape {entry k v : List Nat} (h10 : (10 : Nat) ∉ entry)
    (h : parse_line entry = some (k, v)) : KeyOK k ∧ (∀ c ∈ v, ValidCp c) := by
  cases hd : utf8Decode entry with
  | none => rw [parse_line, hd, Option.none_bind] at h; exact Option.noConfusion h
  | some l =>
      rw [parse_line_decode hd, parseLineCp] at h
      by_cases hcom : (rustTrim l).head? = some 35
      · rw [if_pos hcom] at h; exact Option.noConfusion h
      · rw [if_neg hcom] at h
        cases hsp : splitFirst 61 (rustTrim l) with
        | none => rw [hsp] at h; exact Option.noConfusion h
        | some p =>
            obtain ⟨k0, raw⟩ := p
            rw [hsp, Option.some_bind] at h
            cases hu : unescape raw with
            | none => rw [hu] at h; exact Option.noConfusion h
            | some v0 =>
                rw [hu, Option.map_some', Option.some.injEq, Prod.mk.injEq] at h
                obtain ⟨rfl, rfl⟩ := h
                obtain ⟨hline, hk61⟩ := splitFirst_eq_some hsp
                have hlval : ∀ c ∈ l, ValidCp c := utf8Decode_valid hd
                have hkval : ∀ c ∈ k0, ValidCp c := fun c hc =>
                  hlval c (mem_rustTrim (hline ▸ List.mem_append_left _ hc))
                have hrval : ∀ c ∈ raw, ValidCp c := fun c hc =>
                  hlval c (mem_rustTrim
                    (hline ▸ List.mem_append_right _ (List.mem_cons_of_mem 61 hc)))
                have hl10 : (10 : Nat) ∉ l := fun hh =>
                  h10 (utf8Decode_mem_ascii hd hh (by omega))
                have hk10 : (10 : Nat) ∉ k0 := fun hh =>
                  hl10 (mem_rustTrim (hline ▸ List.mem_append_left _ hh))
                refine ⟨⟨hkval, hk61, hk10, ?_⟩, unescape_valid hrval hu⟩
                intro c hc
                cases k0 with
                | nil => exact absurd hc (List.not_mem_nil c)
                | cons x k' =>
                    obtain rfl : c = x := by simpa using hc
                    have hhead : (rustTrim l).head? = some c := by
                      rw [hline]; rfl
                    exact ⟨rustTrim_head_not_ws hhead,
                      fun h35 => hcom (h35 ▸ hhead)⟩

theorem mem_foldl_insertStore {p : List Nat × List Nat} :
    ∀ {l : List (List Nat × List Nat)} {st : Store},
      p ∈ l.foldl (fun s q => insertStore q.1 q.2 s) st → p ∈ st ∨ p ∈ l := by
  intro l
  induction l with
  | nil => intro st h; exact Or.inl h
  | cons q rest ih =>
      intro st h
      rw [List.foldl_cons] at h
      rcases ih h with h1 | h1
      · rcases mem_insertStore h1 with h2 | h2
        · exact Or.inr (h2 ▸ List.mem_cons_self q rest)
        · exact Or.inl h2
      · exact Or.inr (List.mem_cons_of_mem q h1)

theorem foldl_insertStore_sorted_acc :
    ∀ {l : List (List Nat × List Nat)} {st : Store}, SortedStore st →
      SortedStore (l.foldl (fun s q => insertStore q.1 q.2 s) st) := by
  intro l
  induction l with
  | nil => intro st h; exact h
  | cons q rest ih =>
      intro st h
      rw [List.foldl_cons]
      exact ih (insertStore_sorted h)

theorem envNew_sorted (buf : List Nat) : SortedStore (envNew buf) :=
  foldl_insertStore_sorted_acc List.Pairwise.nil

theorem mem_envNew {buf : List Nat} {p : List Nat × List Nat} (h : p ∈ envNew buf) :
    ∃ entry ∈ splitNl buf, parse_line entry = some p := by
  rcases mem_foldl_insertStore h with h1 | h1
  · exact absurd h1 (List.not_mem_nil p)
  · exact List.mem_filterMap.mp h1

theorem envNew_entry_shape {buf : List Nat} {k v : List Nat}
    (h : (k, v) ∈ envNew buf) : KeyOK k ∧ (∀ c ∈ v, ValidCp c) := by
  obtain ⟨entry, hentry, hp⟩ := mem_envNew h
  exact parse_line_shape (mem_splitNl_no_nl hentry) hp

theorem parse_line_entryLine {k v : List Nat} (hk : KeyOK k) (hv : ∀ c ∈ v, ValidCp c) :
    parse_line (utf8Encode (k ++ 61 :: escape v)) = some (k, v) := by
  obtain ⟨hkval, hk61, hk10, hkhead⟩ := hk
  have hlineval : ∀ c ∈ k ++ 61 :: escape v, ValidCp c := by
    intro c hc
    rcases List.mem_append.mp hc with h1 | h1
    · exact hkval c h1
    · rcases List.mem_cons.mp h1 with rfl | h2
      · exact ⟨by omega, by omega⟩
      · exact escape_valid hv c h2
  rw [parse_line_decode (utf8Decode_encode hlineval), parseLineCp]
  have htrim : rustTrim (k ++ 61 :: escape v) = k ++ 61 :: escape v := by
    apply rustTrim_eq_self
    · intro c hc
      cases k with
      | nil =>
          have h61 : c = 61 := by have h' := hc; simp at h'; omega
          rw [h61]; rfl
      | cons x k' =>
          have hx : c = x := by have h' := hc; simp at h'; omega
          rw [hx]
          exact (hkhead x (by simp)).1
    · intro c hc
      rw [List.getLast?_append_cons] at hc
      cases hesc : escape v with
      | nil =>
          rw [hesc] at hc
          have h61 : c = 61 := by have h' := hc; simp at h'; omega
          rw [h61]; rfl
      | cons e es =>
          rw [hesc, List.getLast?_cons_cons] at hc
          have h2 : (escape v).getLast? = some c := by rw [hesc]; exact hc
          exact escape_getLast_not_ws h2
  rw [htrim]
  have hhead : ¬((k ++ 61 :: escape v).head? = some 35) := by
    cases k with
    | nil => simp
    | cons x k' =>
        intro hcontra
        have hx : x = 35 := by have h' := hcontra; simp at h'; omega
        exact (hkhead x (by simp)).2 hx
  rw [if_neg hhead, splitFirst_append _ hk61, Option.some_bind, unescape_escape v,
    Option.map_some']

theorem utf8Encode_entryLine (k v : List Nat) :
    utf8Encode (k ++ 61 :: escape v) =
      utf8Encode k ++ 61 :: utf8Encode (escape v) := by
  rw [utf8Encode_append, utf8Encode, encodeChar_eq_self (by omega)]
  rfl

theorem writeBuf_split :
    ∀ {st : Store}, (∀ p ∈ st, (10 : Nat) ∉ p.1 ∧ (10 : Nat) ∉ p.2) →
      splitNl (writeBuf st) =
        st.map (fun p => utf8Encode (p.1 ++ 61 :: escape p.2)) ++ [[]] := by
  intro st
  induction st with
  | nil => intro _; rfl
  | cons p rest ih =>
      intro h
      obtain ⟨hk10, hv10⟩ := h p (List.mem_cons_self p rest)
      obtain ⟨k, v⟩ := p
      have hline10 : (10 : Nat) ∉ utf8Encode (k ++ 61 :: escape v) := by
        intro hh
        have := (mem_encode_ascii (by omega) _).mp hh
        rcases List.mem_append.mp this with h1 | h1
        · exact hk10 h1
        · rcases List.mem_cons.mp h1 with h2 | h2
          · omega
          · exact escape_no_nl hv10 h2
      rw [writeBuf, show utf8Encode k ++ 61 :: utf8Encode (escape v) ++ 10 :: writeBuf rest =
          utf8Encode (k ++ 61 :: escape v) ++ 10 :: writeBuf rest from by
        rw [utf8Encode_entryLine],
        splitNl_append hline10, ih (fun q hq => h q (List.mem_cons_of_mem _ hq))]
      simp

theorem linePairs_writeBuf :
    ∀ {st : Store}, (∀ p ∈ st, KeyOK p.1 ∧ ValOK p.2) →
      linePairs (writeBuf st) = st := by
  have hnil : parse_line [] = none := by decide
  intro st hwf
  rw [linePairs, writeBuf_split (fun p hp =>
    ⟨(hwf p hp).1.2.2.1, (hwf p hp).2.2⟩)]
  rw [List.filterMap_append]
  rw [show List.filterMap parse_line [[]] = [] from by
    simp [List.filterMap, hnil]]
  rw [List.append_nil, List.filterMap_map]
  induction st with
  | nil => rfl
  | cons p rest ih =>
      rw [List.filterMap_cons]
      have hp := hwf p (List.mem_cons_self p rest)
      have : (parse_line ∘ fun p => utf8Encode (p.1 ++ 61 :: escape p.2)) p = some p := by
        simpa using parse_line_entryLine hp.1 hp.2.1
      rw [this, ih (fun q hq => hwf q (List.mem_cons_of_mem p hq))]

theorem envNew_writeBuf {st : Store} (hs : SortedStore st)
    (hwf : ∀ p ∈ st, KeyOK p.1 ∧ ValOK p.2) : envNew (writeBuf st) = st := by
  rw [envNew, linePairs_writeBuf hwf, foldl_insertStore_sorted hs]

theorem lookupStore_foldl :
    ∀ (l : List (List Nat × List Nat)) (st : Store) (k : List Nat),
      lookupStore (l.foldl (fun s p => insertStore p.1 p.2 s) st) k =
        ((l.filter (fun p => p.1 = k)).getLast?.map (fun p => p.2)).or
          (lookupStore st k) := by
  intro l
  induction l with
  | nil =>
      intro st k
      rw [List.foldl_nil, List.filter_nil]
      rfl
  | cons p rest ih =>
      intro st k
      rw [List.foldl_cons, ih, List.filter_cons]
      by_cases hp : p.1 = k
      · rw [if_pos (by simp [hp])]
        cases hfr : rest.filter (fun q => decide (q.1 = k)) with
        | nil =>
            show lookupStore (insertStore p.1 p.2 st) k = some p.2
            rw [← hp]
            exact lookupStore_insert_self p.1 p.2 st
        | cons q qs =>
            rw [List.getLast?_cons_cons]
            obtain ⟨r, hr⟩ : ∃ r, (q :: qs).getLast? = some r := by
              cases hgl : (q :: qs).getLast? with
              | none => exact absurd (List.getLast?_eq_none_iff.mp hgl) (by simp)
              | some r => exact ⟨r, rfl⟩
            rw [hr, Option.map_some']
            rfl
      · rw [if_neg (by simp [hp]), lookupStore_insert_ne (fun hh => hp hh.symm) p.2 st]

/-! ## The claims -/

/-- C1, counterexample to the claim as stated: the buffer `A="x\ny"` is
parsed by load into a store mapping `A` to a value with an embedded newline
(the `\n` escape decodes to byte 10).  Writing that store emits the raw
newline inside a single-quoted value, load's newline split then cuts the
quoted value in half, both fragments fail to parse, and the re-parsed store
is empty: for this load-reachable store, `parse(write(store)) ≠ store`. -/
theorem c1_roundtrip_counterexample :
    envNew (bytes "A=\"x\\ny\"") = [(str "A", [120, 10, 121])] ∧
    envNew (writeBuf (envNew (bytes "A=\"x\\ny\""))) = [] ∧
    envNew (writeBuf (envNew (bytes "A=\"x\\ny\""))) ≠ envNew (bytes "A=\"x\\ny\"") := by
  decide

/-- C1 (amended): for every store reachable by load none of whose values
contains a newline character, serializing with write and re-parsing with the
load-side parser yields the identical store:
`parse(write(load(buf))) = load(buf)`. -/
theorem c1_roundtrip (buf : List Nat)
    (hnl : ∀ p ∈ envNew buf, (10 : Nat) ∉ p.2) :
    envNew (writeBuf (envNew buf)) = envNew buf := by
  refine envNew_writeBuf (envNew_sorted buf) ?_
  intro p hp
  obtain ⟨k, v⟩ := p
  obtain ⟨hk, hv⟩ := envNew_entry_shape hp
  exact ⟨hk, hv, hnl (k, v) hp⟩

/-- C1 witness: a two-line buffer with a quoted value round-trips. -/
theorem c1_roundtrip_witness :
    (∀ p ∈ envNew (bytes "B=1\nA='a b'\n"), (10 : Nat) ∉ p.2) ∧
    envNew (writeBuf (envNew (bytes "B=1\nA='a b'\n"))) =
      envNew (bytes "B=1\nA='a b'\n") :=
  ⟨by decide, c1_roundtrip (bytes "B=1\nA='a b'\n") (by decide)⟩

/-- C2, counterexample to the claim as stated: a mapping entry whose value
contains newlines (reachable by load of `K="a\n\nb"`) is serialized by write
into bytes whose newline split has four lines for the single entry, one of
them blank. -/
theorem c2_write_counterexample :
    envNew (bytes "K=\"a\\n\\nb\"") = [(str "K", [97, 10, 10, 98])] ∧
    splitNl (writeBuf (envNew (bytes "K=\"a\\n\\nb\""))) =
      [str "K='a", [], str "b'", []] ∧
    [] ∈ (splitNl (writeBuf (envNew (bytes "K=\"a\\n\\nb\"")))).dropLast := by
  decide

/-- C2 (amended): for a store whose keys are parse-shaped and whose values
contain no newline, write serializes exactly one line per entry of the form
`KEY=escape(VALUE)` followed by the newline byte, in the store's strictly
ascending key order; every emitted line re-parses to its entry, so none is a
comment or blank line. -/
theorem c2_write_canonical (st : Store) (hs : SortedStore st)
    (hwf : ∀ p ∈ st, KeyOK p.1 ∧ ValOK p.2) :
    splitNl (writeBuf st) =
      st.map (fun p => utf8Encode (p.1 ++ 61 :: escape p.2)) ++ [[]] ∧
    (∀ p ∈ st, parse_line (utf8Encode (p.1 ++ 61 :: escape p.2)) = some p) ∧
    List.Pairwise (fun p q => keyLt p.1 q.1 = true) st := by
  refine ⟨writeBuf_split (fun p hp => ⟨(hwf p hp).1.2.2.1, (hwf p hp).2.2⟩), ?_, hs⟩
  intro p hp
  exact parse_line_entryLine (hwf p hp).1 (hwf p hp).2.1

/-- C2 witness: a concrete two-entry store is written as its two sorted
lines followed by the empty terminator piece. -/
theorem c2_write_canonical_witness :
    SortedStore [(str "A", str "x y"), (str "B", str "1")] ∧
    splitNl (writeBuf [(str "A", str "x y"), (str "B", str "1")]) =
      [bytes "A='x y'", bytes "B=1", []] := by
  have h := c2_write_canonical [(str "A", str "x y"), (str "B", str "1")]
    (by decide) (by decide)
  exact ⟨by decide, h.1.trans (by decide)⟩

/-- C3: parsing is total and lenient — a line that is invalid UTF-8, has no
`=` in its trimmed text, or whose value fails to unescape produces no pair
(`parse_line` returns `none` rather than failing), and the load operation
errors exactly when the underlying read fails. -/
theorem c3_lenient_parsing :
    (∀ entry : List Nat, utf8Decode entry = none → parse_line entry = none) ∧
    (∀ entry l : List Nat, utf8Decode entry = some l → (61 : Nat) ∉ rustTrim l →
      parse_line entry = none) ∧
    (∀ entry l k raw : List Nat, utf8Decode entry = some l →
      splitFirst 61 (rustTrim l) = some (k, raw) → unescape raw = none →
      parse_line entry = none) ∧
    (∀ data : List Nat, loadModel (some data) = Except.ok (envNew data)) ∧
    loadModel none = Except.error () := by
  refine ⟨?_, ?_, ?_, fun _ => rfl, rfl⟩
  · intro entry h
    rw [parse_line, h, Option.none_bind]
  · intro entry l h h61
    rw [parse_line_decode h, parseLineCp]
    by_cases hcom : (rustTrim l).head? = some 35
    · rw [if_pos hcom]
    · rw [if_neg hcom, splitFirst_eq_none.mpr h61, Option.none_bind]
  · intro entry l k raw h hsp hu
    rw [parse_line_decode h, parseLineCp]
    by_cases hcom : (rustTrim l).head? = some 35
    · rw [if_pos hcom]
    · rw [if_neg hcom, hsp, Option.some_bind]
      show (unescape raw).map _ = none
      rw [hu]
      rfl

/-- C3 witness: an invalid UTF-8 line, a line without `=`, and a line with a
malformed escape each produce no pair; a successful read loads the store. -/
theorem c3_lenient_parsing_witness :
    parse_line [255, 61, 65] = none ∧
    parse_line (bytes "abc") = none ∧
    parse_line (bytes "K=\"\\q\"") = none ∧
    loadModel (some (bytes "A=1\n")) = Except.ok (envNew (bytes "A=1\n")) :=
  ⟨c3_lenient_parsing.1 [255, 61, 65] (by decide),
   c3_lenient_parsing.2.1 (bytes "abc") (str "abc") (by decide) (by decide),
   c3_lenient_parsing.2.2.1 (bytes "K=\"\\q\"") (str "K=\"\\q\"") (str "K")
     (str "\"\\q\"") (by decide) (by decide) (by decide),
   c3_lenient_parsing.2.2.2.1 (bytes "A=1\n")⟩

/-- C4: on any line whose trimmed text is not a comment, contains an `=`,
and whose value part unescapes, `parse_line` returns the part before the
first `=` as key and the unescape of everything after it as value — in
particular for `" LANG=en_US.UTF-8"` and for
`"RECOVERY_UUID=PARTUUID=asdfasd7asdf7sad-asdfa"`, whose value keeps the
embedded `=`. -/
theorem c4_first_eq_split :
    (∀ l k raw v : List Nat, (∀ c ∈ l, ValidCp c) →
      (rustTrim l).head? ≠ some 35 →
      splitFirst 61 (rustTrim l) = some (k, raw) →
      unescape raw = some v →
      parse_line (utf8Encode l) = some (k, v)) ∧
    parse_line (bytes " LANG=en_US.UTF-8") = some (str "LANG", str "en_US.UTF-8") ∧
    parse_line (bytes "RECOVERY_UUID=PARTUUID=asdfasd7asdf7sad-asdfa") =
      some (str "RECOVERY_UUID", str "PARTUUID=asdfasd7asdf7sad-asdfa") := by
  refine ⟨?_, by decide, by decide⟩
  intro l k raw v hval hcom hsp hu
  rw [parse_line_decode (utf8Decode_encode hval), parseLineCp, if_neg hcom, hsp,
    Option.some_bind]
  show (unescape raw).map _ = _
  rw [hu]
  rfl

/-- C4 witness: the universal split statement applied to the
leading-whitespace example. -/
theorem c4_first_eq_split_witness :
    parse_line (utf8Encode (str " LANG=en_US.UTF-8")) =
      some (str "LANG", str "en_US.UTF-8") :=
  c4_first_eq_split.1 (str " LANG=en_US.UTF-8") (str "LANG") (str "en_US.UTF-8")
    (str "en_US.UTF-8") (by decide) (by decide) (by decide) (by decide)

/-- C5: the store built by load maps each key to the value of the latest
pair-producing line for that key, and never holds two entries with the same
key. -/
theorem c5_later_line_wins :
    (∀ (buf : List Nat) (k : List Nat),
      lookupStore (envNew buf) k =
        ((linePairs buf).filter (fun p => p.1 = k)).getLast?.map (fun p => p.2)) ∧
    (∀ buf : List Nat, (envNew buf).Pairwise (fun p q => p.1 ≠ q.1)) := by
  constructor
  · intro buf k
    rw [envNew, lookupStore_foldl]
    rw [show lookupStore [] k = none from rfl, Option.or_none]
  · intro buf
    exact (envNew_sorted buf).imp fun hlt => keyLt_ne hlt

/-- C6: every line whose trimmed text starts with `#` or is empty produces
no pair. -/
theorem c6_comment_blank_skip :
    ∀ l : List Nat, (∀ c ∈ l, ValidCp c) →
      ((rustTrim l).head? = some 35 ∨ rustTrim l = []) →
      parse_line (utf8Encode l) = none := by
  intro l hval hcase
  rw [parse_line_decode (utf8Decode_encode hval), parseLineCp]
  rcases hcase with hcom | hblank
  · rw [if_pos hcom]
  · rw [hblank]
    simp [splitFirst]

/-- C6 witness: an indented comment line and a whitespace-only line are both
skipped. -/
theorem c6_comment_blank_skip_witness :
    parse_line (utf8Encode (str "   # note")) = none ∧
    parse_line (utf8Encode (str "   ")) = none :=
  ⟨c6_comment_blank_skip (str "   # note") (by decide) (Or.inl (by decide)),
   c6_comment_blank_skip (str "   ") (by decide) (Or.inr (by decide))⟩

/-- C7: a line with an empty value part parses to an entry whose value is
the empty string — the key is present in the store — and the store written
from it re-parses to the same store, with the key still mapped to the empty
string. -/
theorem c7_empty_value :
    parse_line (bytes "KBD_MODEL=") = some (str "KBD_MODEL", []) ∧
    lookupStore (envNew (bytes "KBD_MODEL=\n")) (str "KBD_MODEL") = some [] ∧
    envNew (writeBuf (envNew (bytes "KBD_MODEL=\n"))) = envNew (bytes "KBD_MODEL=\n") ∧
    lookupStore (envNew (writeBuf (envNew (bytes "KBD_MODEL=\n")))) (str "KBD_MODEL") =
      some [] := by
  decide

/-- C8: the whole line is trimmed before any other processing, so a trailing
carriage return (byte 13, left by a CRLF ending after splitting the buffer
on the newline byte) never changes the result of `parse_line`; a CRLF file
loads to the same store as its LF version. -/
theorem c8_trailing_cr :
    (∀ l : List Nat, (∀ c ∈ l, ValidCp c) →
      parse_line (utf8Encode (l ++ [13])) = parse_line (utf8Encode l)) ∧
    envNew (bytes "A=1\r\nB=2\r\n") = [(str "A", str "1"), (str "B", str "2")] := by
  refine ⟨?_, by decide⟩
  intro l hval
  have hval13 : ∀ c ∈ l ++ [13], ValidCp c := by
    intro c hc
    rcases List.mem_append.mp hc with h1 | h1
    · exact hval c h1
    · have h13 : c = 13 := by simpa using h1
      exact ⟨by omega, by omega⟩
  rw [parse_line_decode (utf8Decode_encode hval13),
    parse_line_decode (utf8Decode_encode hval)]
  unfold parseLineCp
  rw [rustTrim_append_ws (by decide) l]

/-- C8 witness: the trailing carriage return is invisible on a concrete
line. -/
theorem c8_trailing_cr_witness :
    parse_line (utf8Encode (str "LANG=en_US.UTF-8" ++ [13])) =
      parse_line (utf8Encode (str "LANG=en_US.UTF-8")) :=
  c8_trailing_cr.1 (str "LANG=en_US.UTF-8") (by decide)

/-- C9: a line whose first non-whitespace character is `=` parses to an
entry with the empty key; the empty string is then a key of the store, and
write emits a line for it that begins with the `=` byte. -/
theorem c9_empty_key :
    parse_line (bytes "=value") = some ([], str "value") ∧
    lookupStore (envNew (bytes "=value\n")) [] = some (str "value") ∧
    (writeBuf (envNew (bytes "=value\n"))).head? = some 61 := by
  decide

/-- C10: write leaves the in-memory state unchanged — the store and the
bound path after the call are exactly what they were before — and its only
product is the serialized buffer handed to the file write. -/
theorem c10_write_frame (e : EnvFile) :
    (write e).1 = e ∧ (write e).1.store = e.store ∧ (write e).1.path = e.path ∧
    (write e).2 = writeBuf e.store :=
  ⟨rfl, rfl, rfl, rfl⟩

end Envfile
